import Mathlib

/-!
Verification of the core algorithms of the `threejs-terrain` repository:
the dictionary reconciliation helpers (`src/util.js`), the fractal noise
generator (`NoiseGenerator`), the adaptive quadtree (`src/quadtree.js`),
and the terrain chunk manager (`TerrainChunkManager`).

JavaScript values are embedded as follows: numbers are modelled as exact
rationals (`ℚ`); a JS number that may be non-finite (`NaN`, `±Infinity`)
is modelled by `JSNum`, where `JSNum.fin q` is a finite value and
`JSNum.nonFin` stands for any non-finite value (the code only ever
branches on `Number.isFinite`); JS objects used as string-keyed maps are
modelled as association lists (key order is insertion order, keys unique
in any map the program builds); thrown exceptions are modelled with
`Except String`.  External collaborators (the raw simplex/perlin noise
primitives, `Math.pow`, the rendering layer's `TerrainChunk`) are
parameters of the embedded functions, exactly where the source reads
them through an injected object.
-/

namespace ThreejsTerrain

/-- A JavaScript number: either a finite value (modelled exactly as a
rational) or a non-finite value (`NaN` / `±Infinity`); the embedded code
only ever distinguishes these two classes, via `Number.isFinite`. -/
inductive JSNum where
  | fin (q : ℚ)
  | nonFin
deriving DecidableEq

/-- `Number.isFinite` on the embedded JS numbers. -/
def JSNum.isFinite : JSNum → Bool
  | .fin _ => true
  | .nonFin => false

/-! ### JS objects as keyed maps (`src/util.js`)

A JS object used as a dictionary is an association list; `k in d` tests
key membership and `d[k]` reads the (first) value stored for `k`. -/

/-- Keys of a JS dictionary, in insertion order. -/
def dictKeys {K V : Type} (d : List (K × V)) : List K :=
  d.map Prod.fst

/-- `d[k]`: the value stored for `k`, `none` when `k` is absent. -/
def dictLookup {K V : Type} [DecidableEq K] (d : List (K × V)) (k : K) : Option V :=
  match d with
  | [] => none
  | kv :: rest => if kv.1 = k then some kv.2 else dictLookup rest k

/-- `DictIntersection(dictA, dictB)` from `src/util.js`: iterate the keys
of `dictB` and keep those present in `dictA`, with the value taken from
`dictA`. -/
def DictIntersection {K A B : Type} [DecidableEq K]
    (dictA : List (K × A)) (dictB : List (K × B)) : List (K × A) :=
  dictB.filterMap fun kv =>
    match dictLookup dictA kv.1 with
    | some v => some (kv.1, v)
    | none => none

/-- `DictDifference(dictA, dictB)` from `src/util.js`: copy `dictA` and
delete every key of `dictB`, i.e. keep the entries of `dictA` whose key
is absent from `dictB`. -/
def DictDifference {K A B : Type} [DecidableEq K]
    (dictA : List (K × A)) (dictB : List (K × B)) : List (K × A) :=
  dictA.filter fun kv => (dictLookup dictB kv.1).isNone

theorem dictKeys_append {K V : Type} {x y : List (K × V)} :
    dictKeys (x ++ y) = dictKeys x ++ dictKeys y := by
  simp [dictKeys]

theorem mem_dictKeys_cons {K V : Type} {kv : K × V} {rest : List (K × V)} {k : K} :
    k ∈ dictKeys (kv :: rest) ↔ k = kv.1 ∨ k ∈ dictKeys rest := by
  simp [dictKeys]

section DictLemmas

variable {K A B V : Type} [DecidableEq K]

theorem dictLookup_eq_none_iff {d : List (K × V)} {k : K} :
    dictLookup d k = none ↔ k ∉ dictKeys d := by
  induction d with
  | nil => simp [dictLookup, dictKeys]
  | cons kv rest ih =>
    simp only [dictLookup]
    rcases eq_or_ne kv.1 k with h | h
    · subst h; simp [mem_dictKeys_cons]
    · rw [if_neg h, ih]
      constructor
      · intro hn hm
        rcases mem_dictKeys_cons.mp hm with hk | hk
        · exact h hk.symm
        · exact hn hk
      · intro hn hm
        exact hn (mem_dictKeys_cons.mpr (Or.inr hm))

theorem dictLookup_isSome_iff {d : List (K × V)} {k : K} :
    (dictLookup d k).isSome = true ↔ k ∈ dictKeys d := by
  rw [Option.isSome_iff_ne_none, not_iff_comm, ← dictLookup_eq_none_iff]

theorem dictLookup_DictIntersection {a : List (K × A)} {b : List (K × B)} {k : K} :
    dictLookup (DictIntersection a b) k =
      if k ∈ dictKeys b then dictLookup a k else none := by
  induction b with
  | nil => simp [DictIntersection, dictKeys, dictLookup]
  | cons kv rest ih =>
    rcases hl : dictLookup a kv.1 with _ | v
    · simp only [DictIntersection, List.filterMap_cons, hl] at ih ⊢
      rcases eq_or_ne k kv.1 with rfl | hk
      · rw [ih, hl]
        simp [mem_dictKeys_cons]
      · rw [ih]
        simp [mem_dictKeys_cons, hk]
    · simp only [DictIntersection, List.filterMap_cons, hl] at ih ⊢
      simp only [dictLookup]
      rcases eq_or_ne kv.1 k with rfl | hk
      · rw [if_pos rfl]
        simp [mem_dictKeys_cons, hl]
      · rw [if_neg hk, ih]
        simp [mem_dictKeys_cons, Ne.symm hk]

theorem dictLookup_DictDifference {a : List (K × A)} {b : List (K × B)} {k : K} :
    dictLookup (DictDifference a b) k =
      if k ∈ dictKeys b then none else dictLookup a k := by
  induction a with
  | nil => simp [DictDifference, dictLookup]
  | cons kv rest ih =>
    rcases hl : dictLookup b kv.1 with _ | v
    · have hkvb : kv.1 ∉ dictKeys b := dictLookup_eq_none_iff.mp hl
      simp only [DictDifference, List.filter_cons, hl, Option.isNone_none, if_pos] at ih ⊢
      simp only [dictLookup]
      rcases eq_or_ne kv.1 k with rfl | hk
      · rw [if_pos rfl, if_neg hkvb, if_pos rfl]
      · rw [if_neg hk, ih]
        by_cases hkb2 : k ∈ dictKeys b <;> simp [hkb2, hk]
    · have hkvb : kv.1 ∈ dictKeys b := by
        rw [← dictLookup_isSome_iff, hl]; rfl
      simp only [DictDifference, List.filter_cons, hl, Option.isNone_some,
        Bool.false_eq_true, if_false] at ih ⊢
      rw [ih]
      rcases eq_or_ne kv.1 k with rfl | hk
      · rw [if_pos hkvb]
        simp [hkvb]
      · simp [dictLookup, hk]

theorem mem_dictKeys_iff_lookup {d : List (K × V)} {k : K} :
    k ∈ dictKeys d ↔ ∃ v, dictLookup d k = some v := by
  rw [← dictLookup_isSome_iff, Option.isSome_iff_exists]

theorem mem_dictKeys_DictIntersection {a : List (K × A)} {b : List (K × B)} {k : K} :
    k ∈ dictKeys (DictIntersection a b) ↔ k ∈ dictKeys a ∧ k ∈ dictKeys b := by
  rw [mem_dictKeys_iff_lookup, dictLookup_DictIntersection]
  by_cases hb : k ∈ dictKeys b
  · simp [hb, ← mem_dictKeys_iff_lookup]
  · simp [hb]

theorem mem_dictKeys_DictDifference {a : List (K × A)} {b : List (K × B)} {k : K} :
    k ∈ dictKeys (DictDifference a b) ↔ k ∈ dictKeys a ∧ k ∉ dictKeys b := by
  rw [mem_dictKeys_iff_lookup, dictLookup_DictDifference]
  by_cases hb : k ∈ dictKeys b
  · simp [hb]
  · simp [hb, ← mem_dictKeys_iff_lookup]

theorem dictLookup_append {x y : List (K × V)} {k : K} :
    dictLookup (x ++ y) k =
      match dictLookup x k with
      | some v => some v
      | none => dictLookup y k := by
  induction x with
  | nil => simp [dictLookup]
  | cons kv rest ih =>
    by_cases hk : kv.1 = k <;> simp [dictLookup, hk, ih]

theorem dictLookup_map_snd {I R : Type} {l : List (K × I)} {f : K → I → R} {k : K} :
    dictLookup (l.map fun ki => (ki.1, f ki.1 ki.2)) k =
      (dictLookup l k).map (f k) := by
  induction l with
  | nil => simp [dictLookup]
  | cons kv rest ih =>
    rcases eq_or_ne kv.1 k with rfl | hk
    · simp [dictLookup]
    · simp [dictLookup, hk, ih]

end DictLemmas

/-! ### The quadtree-mode streaming tick
(`TerrainChunkManager.update.updateQuadTree`, `src/unnamed/part_005`)

After the desired chunk map `newTerrainChunks` has been computed from
the quadtree leaves, the tick reconciles it against the active map
`this._chunks`:

    intersection = DictIntersection(this._chunks, newTerrainChunks)
    difference   = DictDifference(newTerrainChunks, this._chunks)
    recycle      = DictDifference(this._chunks, newTerrainChunks)
    newTerrainChunks = intersection
    for k in recycle: dispose recycle[k].chunk; delete this._chunks[k]
    for k in difference: build a TerrainChunk and store it at k
    this._chunks = newTerrainChunks

`build` stands for the construction of a fresh chunk record (height-map
texture generation plus `new TerrainChunk`, handed to the rendering
collaborator).  The function returns the new active map together with
the recycled (disposed) records. -/
def updateQuadTreeTick {K R I : Type} [DecidableEq K] (build : K → I → R)
    (active : List (K × R)) (desired : List (K × I)) :
    List (K × R) × List (K × R) :=
  let intersection := DictIntersection active desired
  let difference := DictDifference desired active
  let recycle := DictDifference active desired
  let created := difference.map fun ki => (ki.1, build ki.1 ki.2)
  (intersection ++ created, recycle)

/-- **C1.** One streaming tick of the quadtree-mode chunk manager, run
against any active map and any desired map computed for the current
viewer position: the new active map's key set equals the desired key
set; a key present in both keeps its existing record (taken from the
active map by `DictIntersection`, not rebuilt); a key only in the old
active map is recycled (its record is handed to disposal) and dropped
from the new map; a key only in the desired map is bound to a freshly
built record; and a key in neither map stays absent.  No other
transition on any key occurs. -/
theorem updateQuadTreeTick_reconciles {K R I : Type} [DecidableEq K]
    (build : K → I → R) (active : List (K × R)) (desired : List (K × I)) (k : K) :
    (k ∈ dictKeys (updateQuadTreeTick build active desired).1 ↔ k ∈ dictKeys desired)
    ∧ (k ∈ dictKeys active → k ∈ dictKeys desired →
        dictLookup (updateQuadTreeTick build active desired).1 k = dictLookup active k)
    ∧ (k ∈ dictKeys active → k ∉ dictKeys desired →
        dictLookup (updateQuadTreeTick build active desired).2 k = dictLookup active k
        ∧ k ∉ dictKeys (updateQuadTreeTick build active desired).1)
    ∧ (k ∉ dictKeys active → k ∈ dictKeys desired →
        dictLookup (updateQuadTreeTick build active desired).1 k =
          (dictLookup desired k).map (build k)) := by
  have hkeys : ∀ k' : K, k' ∈ dictKeys (updateQuadTreeTick build active desired).1 ↔
      k' ∈ dictKeys desired := by
    intro k'
    simp only [updateQuadTreeTick, dictKeys_append, List.mem_append,
      mem_dictKeys_DictIntersection]
    have hmap : dictKeys ((DictDifference desired active).map
        fun ki => (ki.1, build ki.1 ki.2)) = dictKeys (DictDifference desired active) := by
      simp [dictKeys]
    rw [hmap]
    rw [mem_dictKeys_DictDifference]
    by_cases ha : k' ∈ dictKeys active <;> by_cases hd : k' ∈ dictKeys desired <;>
      simp [ha, hd]
  refine ⟨hkeys k, ?_, ?_, ?_⟩
  · intro ha hd
    simp only [updateQuadTreeTick, dictLookup_append]
    rw [dictLookup_DictIntersection, if_pos hd]
    rcases mem_dictKeys_iff_lookup.mp ha with ⟨v, hv⟩
    simp [hv]
  · intro ha hd
    constructor
    · simp only [updateQuadTreeTick]
      rw [dictLookup_DictDifference, if_neg hd]
    · intro hm
      exact hd ((hkeys k).mp hm)
  · intro ha hd
    simp only [updateQuadTreeTick, dictLookup_append]
    rw [dictLookup_DictIntersection, if_pos hd]
    rw [dictLookup_eq_none_iff.mpr ha]
    rw [dictLookup_map_snd, dictLookup_DictDifference, if_neg ha]

/-- **C5.** Algebra of the two pure map operations in `src/util.js`: the
keys of `DictIntersection(current, desired)` together with the keys of
`DictDifference(desired, current)` are exactly the keys of `desired`;
the keys of `DictDifference(current, desired)` are disjoint from the
keys of `desired`; and every value `DictIntersection(current, desired)`
stores is the value `current` stores for that key. -/
theorem dict_ops_reconcile {K A B : Type} [DecidableEq K]
    (current : List (K × A)) (desired : List (K × B)) (k : K) :
    ((k ∈ dictKeys (DictIntersection current desired)
        ∨ k ∈ dictKeys (DictDifference desired current)) ↔ k ∈ dictKeys desired)
    ∧ ¬ (k ∈ dictKeys (DictDifference current desired) ∧ k ∈ dictKeys desired)
    ∧ (k ∈ dictKeys (DictIntersection current desired) →
        dictLookup (DictIntersection current desired) k = dictLookup current k) := by
  refine ⟨?_, ?_, ?_⟩
  · rw [mem_dictKeys_DictIntersection, mem_dictKeys_DictDifference]
    by_cases ha : k ∈ dictKeys current <;> by_cases hd : k ∈ dictKeys desired <;>
      simp [ha, hd]
  · rw [mem_dictKeys_DictDifference]
    tauto
  · intro hm
    rw [dictLookup_DictIntersection,
      if_pos (mem_dictKeys_DictIntersection.mp hm).2]

/-! ### The noise generator (`NoiseGenerator`, `src/unnamed/part_004`)

The raw 2D noise primitive (`this._noise[this._type].get2D`, backed by
the external simplex-noise / perlin libraries) and `Math.pow` are
external collaborators; they appear as the parameters `raw` and `pw`. -/

/-- The recognised noise kinds (`noiseType`, one of `simplex`/`perlin`). -/
inductive NoiseType where
  | simplex
  | perlin
deriving DecidableEq

/-- The scalar parameter snapshot consumed by the noise generator
(GUI fields `noiseType, scale, octaves, persistence, lacunarity,
exponentiation, height, seed`). -/
structure NoiseParams where
  noiseType : NoiseType
  scale : ℚ
  octaves : ℕ
  persistence : ℚ
  lacunarity : ℚ
  exponentiation : ℚ
  height : ℚ
  seed : JSNum
deriving DecidableEq

/-- The octave accumulation loop of `NoiseGenerator.get2D`: starting
from the loop state `(amplitude, frequency, total, normalization)`,
each iteration computes `noiseValue = raw(xs·frequency, ys·frequency)
· 0.5 + 0.5`, adds `noiseValue · amplitude` to `total` and `amplitude`
to `normalization`, then multiplies `amplitude` by `persistence` and
`frequency` by `lacunarity`.  Returns the final
`(total, normalization)`. -/
def fbmLoop (raw : ℚ → ℚ → ℚ) (persistence lacunarity xs ys : ℚ) :
    ℕ → ℚ → ℚ → ℚ → ℚ → ℚ × ℚ
  | 0, _, _, total, normalization => (total, normalization)
  | o + 1, amplitude, frequency, total, normalization =>
      let noiseValue := raw (xs * frequency) (ys * frequency) * 0.5 + 0.5
      fbmLoop raw persistence lacunarity xs ys o
        (amplitude * persistence) (frequency * lacunarity)
        (total + noiseValue * amplitude) (normalization + amplitude)

/-- `NoiseGenerator.get2D` on finite coordinates: `xs = x / scale`,
`ys = y / scale`, run the octave loop from `amplitude = 1`,
`frequency = 1`, `total = 0`, `normalization = 0`, then return
`pow(total / normalization, exponentiation) * height`. -/
def noiseGet2D (raw pw : ℚ → ℚ → ℚ) (p : NoiseParams) (x y : ℚ) : ℚ :=
  let xs := x / p.scale
  let ys := y / p.scale
  let tn := fbmLoop raw p.persistence p.lacunarity xs ys p.octaves 1 1 0 0
  pw (tn.1 / tn.2) p.exponentiation * p.height

/-- The fBm reference accumulator, written as the spec describes it:
for `o` remaining iterations starting at `(amplitude, frequency)`, the
pair of the running total and the running normalization sum, where each
iteration contributes `(raw(xs·frequency, ys·frequency)·0.5 + 0.5) ·
amplitude` and `amplitude`, and the amplitude/frequency multipliers are
applied between iterations. -/
def fbmReferenceAcc (raw : ℚ → ℚ → ℚ) (persistence lacunarity xs ys : ℚ) :
    ℕ → ℚ → ℚ → ℚ × ℚ
  | 0, _, _ => (0, 0)
  | o + 1, amplitude, frequency =>
      let noiseValue := raw (xs * frequency) (ys * frequency) * 0.5 + 0.5
      let rest := fbmReferenceAcc raw persistence lacunarity xs ys o
        (amplitude * persistence) (frequency * lacunarity)
      (noiseValue * amplitude + rest.1, amplitude + rest.2)

/-- Modelled from the spec: the fBm reference value of `sample2D` —
accumulate `octaves` iterations from `amplitude = 1, frequency = 1` as
in `fbmReferenceAcc`, then return
`pow(total / normalization, exponentiation) × heightScale`. -/
def fbmReference (raw pw : ℚ → ℚ → ℚ) (p : NoiseParams) (x y : ℚ) : ℚ :=
  let xs := x / p.scale
  let ys := y / p.scale
  let tn := fbmReferenceAcc raw p.persistence p.lacunarity xs ys p.octaves 1 1
  pw (tn.1 / tn.2) p.exponentiation * p.height

theorem fbmLoop_eq_acc (raw : ℚ → ℚ → ℚ) (persistence lacunarity xs ys : ℚ) :
    ∀ (o : ℕ) (amplitude frequency total normalization : ℚ),
      fbmLoop raw persistence lacunarity xs ys o amplitude frequency total normalization =
        (total + (fbmReferenceAcc raw persistence lacunarity xs ys o amplitude frequency).1,
         normalization +
           (fbmReferenceAcc raw persistence lacunarity xs ys o amplitude frequency).2) := by
  intro o
  induction o with
  | zero => intro amplitude frequency total normalization; simp [fbmLoop, fbmReferenceAcc]
  | succ o ih =>
    intro amplitude frequency total normalization
    simp only [fbmLoop, fbmReferenceAcc, ih]
    rw [Prod.mk.injEq]
    constructor <;> ring

/-- **C2.** For finite coordinates and `octaves ≥ 1`, `get2D` equals the
fBm reference definition; in particular with `octaves = 1` the result is
`pow(raw(x/scale, y/scale)·0.5 + 0.5, exponentiation) × height`. -/
theorem noiseGet2D_eq_fbmReference (raw pw : ℚ → ℚ → ℚ) (p : NoiseParams) (x y : ℚ)
    (hoct : 1 ≤ p.octaves) :
    noiseGet2D raw pw p x y = fbmReference raw pw p x y
    ∧ (p.octaves = 1 →
        noiseGet2D raw pw p x y =
          pw (raw (x / p.scale) (y / p.scale) * 0.5 + 0.5) p.exponentiation * p.height) := by
  constructor
  · simp only [noiseGet2D, fbmReference, fbmLoop_eq_acc]
    norm_num
  · intro h1
    simp only [noiseGet2D, h1, fbmLoop, fbmReferenceAcc]
    norm_num

/-- Closed witness for `noiseGet2D_eq_fbmReference` at a concrete
parameter set, raw-noise primitive and power primitive. -/
theorem noiseGet2D_eq_fbmReference_witness :
    1 ≤ (3 : ℕ)
    ∧ (noiseGet2D (fun a b => a - b) (fun a b => a * a + b)
          ⟨.simplex, 2, 3, 1/2, 2, 4, 16, .fin 1⟩ 5 7 =
        fbmReference (fun a b => a - b) (fun a b => a * a + b)
          ⟨.simplex, 2, 3, 1/2, 2, 4, 16, .fin 1⟩ 5 7
      ∧ ((3 : ℕ) = 1 →
          noiseGet2D (fun a b => a - b) (fun a b => a * a + b)
              ⟨.simplex, 2, 3, 1/2, 2, 4, 16, .fin 1⟩ 5 7 =
            (fun a b => a * a + b) ((fun a b => a - b) (5 / 2) (7 / 2) * 0.5 + 0.5) 4 * 16)) :=
  ⟨by norm_num,
   noiseGet2D_eq_fbmReference (fun a b => a - b) (fun a b => a * a + b)
     ⟨.simplex, 2, 3, 1/2, 2, 4, 16, .fin 1⟩ 5 7 (by norm_num)⟩

/-- `NoiseGenerator.get2D` with its input validation: throws
`"NoiseGenerator.get2D: invalid coordinate parameter"` when `x` or `y`
is non-finite, otherwise samples the fBm value. -/
def noiseGet2DChecked (raw pw : ℚ → ℚ → ℚ) (p : NoiseParams) (x y : JSNum) :
    Except String ℚ :=
  match x, y with
  | .fin a, .fin b => .ok (noiseGet2D raw pw p a b)
  | _, _ => .error "NoiseGenerator.get2D: invalid coordinate parameter"

/-- **C9.** `get2D(x, y)` fails with the invalid-input error iff `x` or
`y` is non-finite; on finite inputs it returns a scalar without
error. -/
theorem noiseGet2DChecked_error_iff (raw pw : ℚ → ℚ → ℚ) (p : NoiseParams) (x y : JSNum) :
    ((∃ e, noiseGet2DChecked raw pw p x y = .error e) ↔
      (x.isFinite = false ∨ y.isFinite = false))
    ∧ (x.isFinite = true → y.isFinite = true →
        ∃ v, noiseGet2DChecked raw pw p x y = .ok v) := by
  cases x <;> cases y <;>
    simp [noiseGet2DChecked, JSNum.isFinite]

/-- The mutable state of a `NoiseGenerator`: the scalar fields `_type`,
`_scale`, `_octaves`, `_persistence`, `_lacunarity`, `_exponentiation`,
`_height`, `_seed` plus the underlying noise primitives `_noise`
(the simplex/perlin generator pair, of abstract type `P`, constructed
from a seed by the external libraries). -/
structure NoiseGeneratorState (P : Type) where
  type : NoiseType
  scale : ℚ
  octaves : ℕ
  persistence : ℚ
  lacunarity : ℚ
  exponentiation : ℚ
  height : ℚ
  seed : JSNum
  noise : P

/-- `NoiseGenerator.setParams`: replace every scalar field with the new
parameters; rebuild the noise primitive pair from the new seed exactly
when `Number.isFinite(params.seed) && params.seed !== this._seed`.
`build` stands for constructing the generator pair from a seed. -/
def noiseSetParams {P : Type} (build : JSNum → P)
    (s : NoiseGeneratorState P) (p : NoiseParams) : NoiseGeneratorState P :=
  let shouldRebuildGenerators : Bool := p.seed.isFinite && decide (p.seed ≠ s.seed)
  { type := p.noiseType
    scale := p.scale
    octaves := p.octaves
    persistence := p.persistence
    lacunarity := p.lacunarity
    exponentiation := p.exponentiation
    height := p.height
    seed := p.seed
    noise := if shouldRebuildGenerators then build p.seed else s.noise }

/-- **C8.** `setParams(p)` replaces all scalar parameters; for any
parameter set (whose seed, an integer per the data model, is finite)
the noise primitives are rebuilt from the new seed iff `p.seed` differs
from the stored seed, and are kept untouched when the seed is unchanged
— so raw noise values are identical before and after the call. -/
theorem noiseSetParams_rebuild_iff {P : Type} (build : JSNum → P)
    (s : NoiseGeneratorState P) (p : NoiseParams) (hfin : p.seed.isFinite = true) :
    (noiseSetParams build s p).type = p.noiseType
    ∧ (noiseSetParams build s p).scale = p.scale
    ∧ (noiseSetParams build s p).octaves = p.octaves
    ∧ (noiseSetParams build s p).persistence = p.persistence
    ∧ (noiseSetParams build s p).lacunarity = p.lacunarity
    ∧ (noiseSetParams build s p).exponentiation = p.exponentiation
    ∧ (noiseSetParams build s p).height = p.height
    ∧ (noiseSetParams build s p).seed = p.seed
    ∧ (p.seed ≠ s.seed → (noiseSetParams build s p).noise = build p.seed)
    ∧ (p.seed = s.seed → (noiseSetParams build s p).noise = s.noise) := by
  refine ⟨rfl, rfl, rfl, rfl, rfl, rfl, rfl, rfl, ?_, ?_⟩
  · intro hne
    simp [noiseSetParams, hfin, hne]
  · intro heq
    simp [noiseSetParams, heq]

/-- Closed witness for `noiseSetParams_rebuild_iff` at a concrete state
and parameter set (seed changes from 1 to 2, primitives modelled by the
seed value they were built from). -/
theorem noiseSetParams_rebuild_iff_witness :
    (JSNum.fin 2).isFinite = true
    ∧ ((noiseSetParams (fun sd => sd)
          ⟨.simplex, 64, 6, 1/2, 2, 39/10, 16, .fin 1, .fin 1⟩
          ⟨.perlin, 32, 4, 1/4, 3, 2, 8, .fin 2⟩).type = .perlin
        ∧ (noiseSetParams (fun sd => sd)
            ⟨.simplex, 64, 6, 1/2, 2, 39/10, 16, .fin 1, .fin 1⟩
            ⟨.perlin, 32, 4, 1/4, 3, 2, 8, .fin 2⟩).scale = 32
        ∧ (noiseSetParams (fun sd => sd)
            ⟨.simplex, 64, 6, 1/2, 2, 39/10, 16, .fin 1, .fin 1⟩
            ⟨.perlin, 32, 4, 1/4, 3, 2, 8, .fin 2⟩).octaves = 4
        ∧ (noiseSetParams (fun sd => sd)
            ⟨.simplex, 64, 6, 1/2, 2, 39/10, 16, .fin 1, .fin 1⟩
            ⟨.perlin, 32, 4, 1/4, 3, 2, 8, .fin 2⟩).persistence = 1/4
        ∧ (noiseSetParams (fun sd => sd)
            ⟨.simplex, 64, 6, 1/2, 2, 39/10, 16, .fin 1, .fin 1⟩
            ⟨.perlin, 32, 4, 1/4, 3, 2, 8, .fin 2⟩).lacunarity = 3
        ∧ (noiseSetParams (fun sd => sd)
            ⟨.simplex, 64, 6, 1/2, 2, 39/10, 16, .fin 1, .fin 1⟩
            ⟨.perlin, 32, 4, 1/4, 3, 2, 8, .fin 2⟩).exponentiation = 2
        ∧ (noiseSetParams (fun sd => sd)
            ⟨.simplex, 64, 6, 1/2, 2, 39/10, 16, .fin 1, .fin 1⟩
            ⟨.perlin, 32, 4, 1/4, 3, 2, 8, .fin 2⟩).height = 8
        ∧ (noiseSetParams (fun sd => sd)
            ⟨.simplex, 64, 6, 1/2, 2, 39/10, 16, .fin 1, .fin 1⟩
            ⟨.perlin, 32, 4, 1/4, 3, 2, 8, .fin 2⟩).seed = .fin 2
        ∧ (JSNum.fin 2 ≠ JSNum.fin 1 →
            (noiseSetParams (fun sd => sd)
              ⟨.simplex, 64, 6, 1/2, 2, 39/10, 16, .fin 1, .fin 1⟩
              ⟨.perlin, 32, 4, 1/4, 3, 2, 8, .fin 2⟩).noise = .fin 2)
        ∧ (JSNum.fin 2 = JSNum.fin 1 →
            (noiseSetParams (fun sd => sd)
              ⟨.simplex, 64, 6, 1/2, 2, 39/10, 16, .fin 1, .fin 1⟩
              ⟨.perlin, 32, 4, 1/4, 3, 2, 8, .fin 2⟩).noise = .fin 1)) :=
  ⟨rfl,
   noiseSetParams_rebuild_iff (fun sd => sd)
     ⟨.simplex, 64, 6, 1/2, 2, 39/10, 16, .fin 1, .fin 1⟩
     ⟨.perlin, 32, 4, 1/4, 3, 2, 8, .fin 2⟩ rfl⟩

/-! ### Chunk manager grid cells and the single-chunk update
(`TerrainChunkManager`, `src/unnamed/part_005`) -/

/-- The pure arithmetic core of `TerrainChunkManager._cellIndex` on
finite planar coordinates: `xp = px + chunkSize·0.5`,
`yp = py + chunkSize·0.5`, cell = `(floor(xp / chunkSize),
-floor(yp / chunkSize))` (`Math.floor` is the integer floor). -/
def cellIndexQ (chunkSize px py : ℚ) : ℤ × ℤ :=
  let xp := px + chunkSize * 0.5
  let yp := py + chunkSize * 0.5
  (⌊xp / chunkSize⌋, -⌊yp / chunkSize⌋)

/-- `TerrainChunkManager._cellIndex(pos)`: the planar second coordinate
is `pos.z` when finite, else `pos.y`; non-finite coordinates throw
`"TerrainChunkManager._cellIndex: invalid position parameter"`. -/
def cellIndex (chunkSize : ℚ) (posX posY posZ : JSNum) : Except String (ℤ × ℤ) :=
  let px := posX
  let py := if posZ.isFinite then posZ else posY
  match px, py with
  | .fin a, .fin b => .ok (cellIndexQ chunkSize a b)
  | _, _ => .error "TerrainChunkManager._cellIndex: invalid position parameter"

/-- **C7 counterexample.** At viewer position `(64, 0, 0)` with chunk
size `128`, the computed cell is `(1, 0)`, not the claimed
`(floor(64/128), -floor(0/128)) = (0, 0)`: `_cellIndex` offsets the
position by half a chunk before dividing and flooring. -/
theorem cellIndex_half_offset_counterexample :
    cellIndex 128 (.fin 64) (.fin 0) (.fin 0) ≠
      .ok (⌊(64 : ℚ) / 128⌋, -⌊(0 : ℚ) / 128⌋) := by
  have hcode : cellIndex 128 (.fin 64) (.fin 0) (.fin 0) = .ok (1, 0) := by
    show Except.ok (cellIndexQ 128 64 0) = _
    rw [cellIndexQ]
    norm_num
  have hclaim : ((⌊(64 : ℚ) / 128⌋ : ℤ), (-⌊(0 : ℚ) / 128⌋ : ℤ)) = ((0 : ℤ), (0 : ℤ)) := by
    norm_num
  rw [hcode, hclaim]
  intro hc
  rw [Except.ok.injEq, Prod.mk.injEq] at hc
  exact one_ne_zero hc.1

/-- **C7 (amended).** For every finite viewer position and chunk size,
the viewer's grid cell is the viewer position *offset by half a chunk*,
divided by the chunk size and floored per axis, with the Y-axis sign
inverted: `cell = (floor((px + s/2)/s), -floor((py + s/2)/s))`, where
the planar coordinate pair is `(pos.x, pos.z)` (falling back to `pos.y`
for a non-finite `pos.z`). -/
theorem cellIndex_eq_floor (chunkSize px py pz : ℚ) :
    cellIndex chunkSize (.fin px) (.fin py) (.fin pz) =
      .ok (⌊(px + chunkSize / 2) / chunkSize⌋, -⌊(pz + chunkSize / 2) / chunkSize⌋) := by
  show Except.ok (cellIndexQ chunkSize px pz) = _
  unfold cellIndexQ
  norm_num
  constructor <;> (congr 1; ring)

/-- A chunk record stored in `this._chunks` by `_addChunk`:
`{ position: [x, y], center: [x·chunkSize, y·chunkSize],
size: chunkSize, chunk: <TerrainChunk> }`.  The `TerrainChunk` itself
(geometry, material, height-map texture) lives in the rendering
collaborator and is abstracted to a value of type `C`. -/
structure ChunkRecord (C : Type) where
  position : ℤ × ℤ
  center : ℚ × ℚ
  size : ℚ
  chunk : C

/-- The string key `_key(x, y) = x + "." + y`. -/
def jsKey (x y : ℤ) : String :=
  toString x ++ "." ++ toString y

/-- JS property assignment `d[k] = v`: overwrite in place when the key
exists, append otherwise. -/
def dictSet {K V : Type} [DecidableEq K] (d : List (K × V)) (k : K) (v : V) :
    List (K × V) :=
  if k ∈ dictKeys d then d.map (fun kv => if kv.1 = k then (k, v) else kv)
  else d ++ [(k, v)]

/-- `TerrainChunkManager._addChunk(x, y)`: build a chunk centred at
`(x·chunkSize, y·chunkSize)` of size `chunkSize` (height-map texture
generation plus `new TerrainChunk`, abstracted by `mk`) and store its
record under `_key(x, y)`. -/
def addChunk {C : Type} (mk : ℚ → ℚ → ℚ → C) (chunkSize : ℚ)
    (chunks : List (String × ChunkRecord C)) (x y : ℤ) :
    List (String × ChunkRecord C) :=
  let centerX := (x : ℚ) * chunkSize
  let centerY := (y : ℚ) * chunkSize
  dictSet chunks (jsKey x y)
    ⟨(x, y), (centerX, centerY), chunkSize, mk centerX centerY chunkSize⟩

/-- `TerrainChunkManager.update.updatedSingle` (the branch `update`
actually runs) on a finite viewer position: compute the viewer's cell,
and if its key is already active do nothing, otherwise `_addChunk` the
single chunk of that cell. -/
def updatedSingle {C : Type} (mk : ℚ → ℚ → ℚ → C) (chunkSize : ℚ)
    (chunks : List (String × ChunkRecord C)) (px py : ℚ) :
    List (String × ChunkRecord C) :=
  let cell := cellIndexQ chunkSize px py
  let key := jsKey cell.1 cell.2
  if key ∈ dictKeys chunks then chunks
  else addChunk mk chunkSize chunks cell.1 cell.2

theorem floor_cell_bounds {s q : ℚ} (hs : 0 < s) :
    (⌊(q + s * 0.5) / s⌋ : ℚ) * s - s / 2 ≤ q
    ∧ q < (⌊(q + s * 0.5) / s⌋ : ℚ) * s + s / 2 := by
  have hfl : (⌊(q + s * 0.5) / s⌋ : ℚ) ≤ (q + s * 0.5) / s := Int.floor_le _
  have hfu : (q + s * 0.5) / s < (⌊(q + s * 0.5) / s⌋ : ℚ) + 1 := Int.lt_floor_add_one _
  constructor
  · have := (mul_le_mul_right hs).mpr hfl
    rw [div_mul_cancel₀ _ (ne_of_gt hs)] at this
    nlinarith
  · have := (mul_lt_mul_right hs).mpr hfu
    rw [div_mul_cancel₀ _ (ne_of_gt hs)] at this
    nlinarith

/-- **C10.** A single `update(deltaTime)` call (which runs
`updatedSingle`) never disposes or removes an existing chunk and adds at
most one: when the key of the viewer's cell is already active the map is
completely unchanged; when it is absent exactly one record — the
fixed-size chunk of the cell containing the viewer — is appended; every
previously stored record is still found unchanged; and the cell's chunk
square (centre `(xc·s, -yc·s)` in plan coordinates, side `s`) does
contain the viewer position on both axes. -/
theorem updatedSingle_adds_at_most_one {C : Type} (mk : ℚ → ℚ → ℚ → C)
    (chunkSize : ℚ) (chunks : List (String × ChunkRecord C)) (px py : ℚ)
    (hs : 0 < chunkSize) :
    (jsKey (cellIndexQ chunkSize px py).1 (cellIndexQ chunkSize px py).2 ∈ dictKeys chunks →
      updatedSingle mk chunkSize chunks px py = chunks)
    ∧ (jsKey (cellIndexQ chunkSize px py).1 (cellIndexQ chunkSize px py).2 ∉ dictKeys chunks →
      updatedSingle mk chunkSize chunks px py =
        chunks ++ [(jsKey (cellIndexQ chunkSize px py).1 (cellIndexQ chunkSize px py).2,
          ⟨((cellIndexQ chunkSize px py).1, (cellIndexQ chunkSize px py).2),
           (((cellIndexQ chunkSize px py).1 : ℚ) * chunkSize,
            ((cellIndexQ chunkSize px py).2 : ℚ) * chunkSize),
           chunkSize,
           mk (((cellIndexQ chunkSize px py).1 : ℚ) * chunkSize)
              (((cellIndexQ chunkSize px py).2 : ℚ) * chunkSize) chunkSize⟩)])
    ∧ (∀ k ∈ dictKeys chunks,
        dictLookup (updatedSingle mk chunkSize chunks px py) k = dictLookup chunks k)
    ∧ (((cellIndexQ chunkSize px py).1 : ℚ) * chunkSize - chunkSize / 2 ≤ px
        ∧ px < ((cellIndexQ chunkSize px py).1 : ℚ) * chunkSize + chunkSize / 2)
    ∧ ((-(cellIndexQ chunkSize px py).2 : ℚ) * chunkSize - chunkSize / 2 ≤ py
        ∧ py < (-(cellIndexQ chunkSize px py).2 : ℚ) * chunkSize + chunkSize / 2) := by
  set key := jsKey (cellIndexQ chunkSize px py).1 (cellIndexQ chunkSize px py).2 with hkey
  have habsent : key ∉ dictKeys chunks →
      updatedSingle mk chunkSize chunks px py =
        chunks ++ [(key,
          ⟨((cellIndexQ chunkSize px py).1, (cellIndexQ chunkSize px py).2),
           (((cellIndexQ chunkSize px py).1 : ℚ) * chunkSize,
            ((cellIndexQ chunkSize px py).2 : ℚ) * chunkSize),
           chunkSize,
           mk (((cellIndexQ chunkSize px py).1 : ℚ) * chunkSize)
              (((cellIndexQ chunkSize px py).2 : ℚ) * chunkSize) chunkSize⟩)] := by
    intro habs
    rw [updatedSingle, if_neg habs, addChunk, dictSet, if_neg habs]
  refine ⟨fun hpres => ?_, habsent, ?_, ?_, ?_⟩
  · rw [updatedSingle, if_pos hpres]
  · intro k hk
    by_cases hpres : key ∈ dictKeys chunks
    · rw [updatedSingle, if_pos hpres]
    · rw [habsent hpres, dictLookup_append]
      rcases mem_dictKeys_iff_lookup.mp hk with ⟨v, hv⟩
      simp [hv]
  · have := floor_cell_bounds (q := px) hs
    simpa [cellIndexQ] using this
  · have := floor_cell_bounds (q := py) hs
    simpa [cellIndexQ] using this

/-- Closed witness for `updatedSingle_adds_at_most_one`: viewer at the
origin, chunk size `128`, empty active map. -/
theorem updatedSingle_adds_at_most_one_witness :
    0 < (128 : ℚ)
    ∧ ((jsKey (cellIndexQ 128 0 0).1 (cellIndexQ 128 0 0).2 ∈
          dictKeys ([] : List (String × ChunkRecord ℕ)) →
        updatedSingle (fun _ _ _ => 0) 128 [] 0 0 = [])
      ∧ (jsKey (cellIndexQ 128 0 0).1 (cellIndexQ 128 0 0).2 ∉
          dictKeys ([] : List (String × ChunkRecord ℕ)) →
        updatedSingle (fun _ _ _ => (0 : ℕ)) 128 [] 0 0 =
          [] ++ [(jsKey (cellIndexQ 128 0 0).1 (cellIndexQ 128 0 0).2,
            ⟨((cellIndexQ 128 0 0).1, (cellIndexQ 128 0 0).2),
             (((cellIndexQ 128 0 0).1 : ℚ) * 128, ((cellIndexQ 128 0 0).2 : ℚ) * 128),
             128,
             (fun _ _ _ => (0 : ℕ)) (((cellIndexQ 128 0 0).1 : ℚ) * 128)
               (((cellIndexQ 128 0 0).2 : ℚ) * 128) 128⟩)])
      ∧ (∀ k ∈ dictKeys ([] : List (String × ChunkRecord ℕ)),
          dictLookup (updatedSingle (fun _ _ _ => (0 : ℕ)) 128 [] 0 0) k =
            dictLookup ([] : List (String × ChunkRecord ℕ)) k)
      ∧ (((cellIndexQ 128 0 0).1 : ℚ) * 128 - 128 / 2 ≤ 0
          ∧ (0 : ℚ) < ((cellIndexQ 128 0 0).1 : ℚ) * 128 + 128 / 2)
      ∧ ((-(cellIndexQ 128 0 0).2 : ℚ) * 128 - 128 / 2 ≤ 0
          ∧ (0 : ℚ) < (-(cellIndexQ 128 0 0).2 : ℚ) * 128 + 128 / 2)) :=
  ⟨by norm_num, updatedSingle_adds_at_most_one (fun _ _ _ => (0 : ℕ)) 128 [] 0 0 (by norm_num)⟩

/-! ### The height-field builder
(`TerrainChunkManager._generateHeightMapTexture`, `src/unnamed/part_005`)

The noise sampler `this._noiseGenerator.get2D` is the parameter `g`;
the row-major `Float32Array` payload of the `DataTexture` is the list
of samples. -/

/-- `_generateHeightMapTexture(centerX, centerY, chunkSize)`:
`resolution = chunkSegments + 3` (a 1-texel border on each side of the
`segments + 1` vertex samples), `sampleStep = chunkSize /
chunkSegments`, and, row-major, `data[row·resolution + col] =
g(centerX - chunkSize/2 - sampleStep + col·sampleStep,
centerY - chunkSize/2 - sampleStep + row·sampleStep)`. -/
def generateHeightMapData (g : ℚ → ℚ → ℚ) (centerX centerY chunkSize : ℚ)
    (chunkSegments : ℕ) : List ℚ :=
  let resolution := chunkSegments + 3
  let sampleStep := chunkSize / (chunkSegments : ℚ)
  (List.range resolution).flatMap fun row : ℕ =>
    (List.range resolution).map fun col : ℕ =>
      g (centerX - chunkSize / 2 - sampleStep + (col : ℚ) * sampleStep)
        (centerY - chunkSize / 2 - sampleStep + (row : ℚ) * sampleStep)

theorem length_flatMap_const {α β : Type} (f : α → List β) (res : ℕ)
    (h : ∀ a, (f a).length = res) :
    ∀ l : List α, (l.flatMap f).length = l.length * res := by
  intro l
  induction l with
  | nil => simp
  | cons hd tl ih =>
    simp only [List.flatMap_cons, List.length_append, List.length_cons, ih, h]
    ring

theorem flatMap_rows_getElem {α : Type} (f : ℕ → List α) (res : ℕ)
    (hlen : ∀ i, (f i).length = res) :
    ∀ (rs : List ℕ) (r c : ℕ) (hr : r < rs.length), c < res →
      (rs.flatMap f)[r * res + c]? = (f rs[r])[c]? := by
  intro rs
  induction rs with
  | nil =>
    intro r c hr _
    simp at hr
  | cons hd tl ih =>
    intro r c hr hc
    cases r with
    | zero =>
      simp only [List.flatMap_cons, Nat.zero_mul, Nat.zero_add]
      rw [List.getElem?_append_left (by rw [hlen]; exact hc)]
      rfl
    | succ r' =>
      simp only [List.flatMap_cons]
      rw [List.getElem?_append_right (by rw [hlen]; nlinarith)]
      have harith : (r' + 1) * res + c - (f hd).length = r' * res + c := by
        rw [hlen]; ring_nf; omega
      rw [harith]
      have hr' : r' < tl.length := by simpa using hr
      rw [ih r' c hr' hc]
      rfl

/-- **C6.** For every centre, `size ≥ 1` and integer `segments ≥ 1`, the
height-field build with a one-sample border returns a row-major matrix
of exactly `(segments + 1 + 2·1)²` scalars, and the entry at
`(row, col)` is the noise sample at
`(centerX − size/2 − step + col·step, centerY − size/2 − step + row·step)`
with `step = size/segments`. -/
theorem generateHeightMapData_resolution (g : ℚ → ℚ → ℚ)
    (centerX centerY chunkSize : ℚ) (chunkSegments : ℕ)
    (hsize : 1 ≤ chunkSize) (hseg : 1 ≤ chunkSegments) :
    (generateHeightMapData g centerX centerY chunkSize chunkSegments).length =
      (chunkSegments + 1 + 2 * 1) ^ 2
    ∧ (∀ row col : ℕ, row < chunkSegments + 3 → col < chunkSegments + 3 →
        (generateHeightMapData g centerX centerY chunkSize chunkSegments)[
            row * (chunkSegments + 3) + col]? =
          some (g (centerX - chunkSize / 2 - chunkSize / (chunkSegments : ℚ)
                    + (col : ℚ) * (chunkSize / (chunkSegments : ℚ)))
                  (centerY - chunkSize / 2 - chunkSize / (chunkSegments : ℚ)
                    + (row : ℚ) * (chunkSize / (chunkSegments : ℚ))))) := by
  have hlen : ∀ i : ℕ,
      ((List.range (chunkSegments + 3)).map fun col : ℕ =>
        g (centerX - chunkSize / 2 - chunkSize / (chunkSegments : ℚ)
            + (col : ℚ) * (chunkSize / (chunkSegments : ℚ)))
          (centerY - chunkSize / 2 - chunkSize / (chunkSegments : ℚ)
            + (i : ℚ) * (chunkSize / (chunkSegments : ℚ)))).length =
        chunkSegments + 3 :=
    fun i => by rw [List.length_map, List.length_range]
  constructor
  · rw [generateHeightMapData]
    rw [length_flatMap_const _ (chunkSegments + 3) hlen]
    rw [List.length_range]
    rw [show chunkSegments + 1 + 2 * 1 = chunkSegments + 3 from by ring, sq]
  · intro row col hrow hcol
    rw [generateHeightMapData]
    rw [flatMap_rows_getElem _ (chunkSegments + 3) hlen _ row col
      (by simpa using hrow) hcol]
    rw [List.getElem_range]
    rw [List.getElem?_map, List.getElem?_range hcol]
    rfl

/-- Closed witness for `generateHeightMapData_resolution`: a chunk of
size `4` with `2` segments sampled with a concrete noise function. -/
theorem generateHeightMapData_resolution_witness :
    ((1 : ℚ) ≤ 4 ∧ 1 ≤ 2)
    ∧ ((generateHeightMapData (fun a b => a + 2 * b) 0 0 4 2).length = (2 + 1 + 2 * 1) ^ 2
      ∧ (∀ row col : ℕ, row < 2 + 3 → col < 2 + 3 →
          (generateHeightMapData (fun a b => a + 2 * b) 0 0 4 2)[row * (2 + 3) + col]? =
            some ((fun a b => a + 2 * b)
              ((0 : ℚ) - 4 / 2 - 4 / ((2 : ℕ) : ℚ) + (col : ℚ) * (4 / ((2 : ℕ) : ℚ)))
              ((0 : ℚ) - 4 / 2 - 4 / ((2 : ℕ) : ℚ) + (row : ℚ) * (4 / ((2 : ℕ) : ℚ)))))) :=
  ⟨⟨by norm_num, by norm_num⟩,
   generateHeightMapData_resolution (fun a b => a + 2 * b) 0 0 4 2 (by norm_num) (by norm_num)⟩

/-! ### The adaptive quadtree (`QuadTree`, `src/src/quadtree.js`)

Vectors and boxes mirror `THREE.Vector2` / `THREE.Box2`:
`getCenter = (min + max)·0.5`, `getSize = max − min`.  Every node
stores its bounding box; the stored `center` and `size` fields of the
JS node are always the derived `getCenter`/`getSize` of its box, so
they are modelled as functions of the box.  `Vector2.distanceTo` is a
Euclidean distance (a square root, unavailable in exact rational
arithmetic), so the code's comparison `distanceTo(position) <
child.size.x` is embedded by the exactly equivalent square-free test
`distLt`: for every real `r`, `dist < r ↔ dist² < r² ∧ 0 ≤ r` (the
distance itself is non-negative). -/

/-- A planar point (`THREE.Vector2`). -/
structure Vec2 where
  x : ℚ
  y : ℚ
deriving DecidableEq

/-- An axis-aligned rectangle (`THREE.Box2`). -/
structure Box2 where
  min : Vec2
  max : Vec2
deriving DecidableEq

/-- `Box2.getCenter`: the midpoint `(min + max)·0.5`. -/
def Box2.getCenter (b : Box2) : Vec2 :=
  ⟨(b.min.x + b.max.x) * 0.5, (b.min.y + b.max.y) * 0.5⟩

/-- `Box2.getSize`: the extent `max − min`. -/
def Box2.getSize (b : Box2) : Vec2 :=
  ⟨b.max.x - b.min.x, b.max.y - b.min.y⟩

/-- Squared Euclidean distance between two points. -/
def Vec2.distSq (a b : Vec2) : ℚ :=
  (a.x - b.x) ^ 2 + (a.y - b.y) ^ 2

/-- `a.distanceTo(p) < r`, encoded without the square root: the
Euclidean distance is below `r` iff its square is below `r²` and `r` is
non-negative. -/
def distLt (a p : Vec2) (r : ℚ) : Prop :=
  Vec2.distSq a p < r ^ 2 ∧ 0 ≤ r

instance (a p : Vec2) (r : ℚ) : Decidable (distLt a p r) := by
  unfold distLt
  infer_instance

/-- A quadtree node: its bounding box and its children (empty for a
leaf, exactly the four quadrants once subdivided). -/
inductive QNode where
  | mk (bounds : Box2) (children : List QNode)

/-- The node's bounding box. -/
def QNode.bounds : QNode → Box2
  | .mk b _ => b

/-- The node's children list. -/
def QNode.children : QNode → List QNode
  | .mk _ cs => cs

/-- `createChildren` from `QuadTree.insert`: split a box at its
midpoint into bottom-left, bottom-right, top-left and top-right
quadrants, in that order. -/
def quadBoxes (b : Box2) : List Box2 :=
  let midpoint := b.getCenter
  [⟨b.min, midpoint⟩,
   ⟨⟨midpoint.x, b.min.y⟩, ⟨b.max.x, midpoint.y⟩⟩,
   ⟨⟨b.min.x, midpoint.y⟩, ⟨midpoint.x, b.max.y⟩⟩,
   ⟨midpoint, b.max⟩]

/-- `insertRecursive` from `QuadTree.insert`, applied to a node that is
still a leaf (the only nodes it ever receives): if
`distanceTo(center, position) < size.x` and `size.x > minNodeSize`,
subdivide into the four quadrants and recurse into each; otherwise the
node stays a leaf.  `fuel` bounds the recursion depth (each level
halves `size.x`, so any `fuel` with `size.x ≤ minNodeSize · 2^fuel`
is enough; the JS recursion has no such bound and diverges when
`minNodeSize ≤ 0`). -/
def insertBox (minNodeSize : ℚ) (position : Vec2) : ℕ → Box2 → QNode
  | 0, b => .mk b []
  | fuel + 1, b =>
      if distLt b.getCenter position (b.getSize).x ∧ minNodeSize < (b.getSize).x then
        .mk b ((quadBoxes b).map (insertBox minNodeSize position fuel))
      else .mk b []

/-- `getChildrenRecursive` from `QuadTree.getChildren`, over a work
list: a childless node is collected as a leaf, otherwise the collector
recurses into its children, depth first. -/
def getChildrenList : List QNode → List QNode
  | [] => []
  | .mk b [] :: rest => .mk b [] :: getChildrenList rest
  | .mk _ (c :: cs) :: rest => getChildrenList (c :: cs) ++ getChildrenList rest

/-- `QuadTree.getChildren()`: the depth-first list of current leaves. -/
def getChildren (t : QNode) : List QNode :=
  getChildrenList [t]

/-- All nodes of the trees in the work list, depth first. -/
def allNodesList : List QNode → List QNode
  | [] => []
  | .mk b cs :: rest => .mk b cs :: (allNodesList cs ++ allNodesList rest)

/-- All nodes of a tree (the node itself and its descendants). -/
def allNodes (t : QNode) : List QNode :=
  allNodesList [t]

/-- Closed-box membership: the point lies within the box bounds. -/
def memBox (b : Box2) (p : Vec2) : Prop :=
  b.min.x ≤ p.x ∧ p.x ≤ b.max.x ∧ b.min.y ≤ p.y ∧ p.y ≤ b.max.y

/-- Open-box membership: the point lies strictly inside the box. -/
def interiorBox (b : Box2) (p : Vec2) : Prop :=
  b.min.x < p.x ∧ p.x < b.max.x ∧ b.min.y < p.y ∧ p.y < b.max.y

/-- Box containment, stated on the corner coordinates. -/
def boxLe (inner outer : Box2) : Prop :=
  outer.min.x ≤ inner.min.x ∧ inner.max.x ≤ outer.max.x
  ∧ outer.min.y ≤ inner.min.y ∧ inner.max.y ≤ outer.max.y

/-- A well-formed box: `min ≤ max` on both axes. -/
def Box2.wf (b : Box2) : Prop :=
  b.min.x ≤ b.max.x ∧ b.min.y ≤ b.max.y

instance (b : Box2) : Decidable b.wf := by
  unfold Box2.wf
  infer_instance

theorem getChildrenList_cons (t : QNode) (rest : List QNode) :
    getChildrenList (t :: rest) = getChildren t ++ getChildrenList rest := by
  rcases t with ⟨b, _ | ⟨c, cs⟩⟩
  · simp [getChildrenList, getChildren]
  · simp [getChildrenList, getChildren]

theorem mem_getChildrenList {n : QNode} {l : List QNode} :
    n ∈ getChildrenList l ↔ ∃ t ∈ l, n ∈ getChildren t := by
  induction l with
  | nil => simp [getChildrenList]
  | cons t rest ih => simp [getChildrenList_cons, ih]

theorem allNodesList_cons (t : QNode) (rest : List QNode) :
    allNodesList (t :: rest) = allNodes t ++ allNodesList rest := by
  rcases t with ⟨b, cs⟩
  simp [allNodesList, allNodes]

theorem mem_allNodesList {n : QNode} {l : List QNode} :
    n ∈ allNodesList l ↔ ∃ t ∈ l, n ∈ allNodes t := by
  induction l with
  | nil => simp [allNodesList]
  | cons t rest ih => simp [allNodesList_cons, ih]

theorem getChildren_leaf (b : Box2) : getChildren (.mk b []) = [.mk b []] := by
  simp [getChildren, getChildrenList]

theorem getChildren_node (b : Box2) (c : QNode) (cs : List QNode) :
    getChildren (.mk b (c :: cs)) = getChildrenList (c :: cs) := by
  simp [getChildren, getChildrenList]

theorem getChildren_mk_of_ne_nil (b : Box2) (cs : List QNode) (h : cs ≠ []) :
    getChildren (.mk b cs) = getChildrenList cs := by
  cases cs with
  | nil => exact absurd rfl h
  | cons c cs => exact getChildren_node b c cs

theorem allNodes_def (b : Box2) (cs : List QNode) :
    allNodes (.mk b cs) = .mk b cs :: allNodesList cs := by
  simp [allNodes, allNodesList]

theorem insertBox_bounds (m : ℚ) (pos : Vec2) (fuel : ℕ) (b : Box2) :
    (insertBox m pos fuel b).bounds = b := by
  cases fuel with
  | zero => rfl
  | succ fuel =>
    rw [insertBox]
    split <;> rfl

theorem quadBoxes_sizeX {b qb : Box2} (hqb : qb ∈ quadBoxes b) :
    (qb.getSize).x = (b.getSize).x / 2 := by
  simp only [quadBoxes, List.mem_cons, List.not_mem_nil, or_false] at hqb
  rcases hqb with rfl | rfl | rfl | rfl <;>
    simp only [Box2.getSize, Box2.getCenter] <;> ring

theorem quadBoxes_wf {b qb : Box2} (hb : b.wf) (hqb : qb ∈ quadBoxes b) : qb.wf := by
  obtain ⟨hx, hy⟩ := hb
  simp only [quadBoxes, List.mem_cons, List.not_mem_nil, or_false] at hqb
  rcases hqb with rfl | rfl | rfl | rfl <;>
    constructor <;> simp only [Box2.getCenter] <;> linarith

theorem quadBoxes_boxLe {b qb : Box2} (hb : b.wf) (hqb : qb ∈ quadBoxes b) :
    boxLe qb b := by
  obtain ⟨hx, hy⟩ := hb
  simp only [quadBoxes, List.mem_cons, List.not_mem_nil, or_false] at hqb
  rcases hqb with rfl | rfl | rfl | rfl <;>
    refine ⟨?_, ?_, ?_, ?_⟩ <;> simp only [Box2.getCenter] <;> linarith

theorem quadBoxes_cover {b : Box2} (hb : b.wf) (p : Vec2) :
    memBox b p ↔ ∃ qb ∈ quadBoxes b, memBox qb p := by
  obtain ⟨hx, hy⟩ := hb
  constructor
  · rintro ⟨h1, h2, h3, h4⟩
    by_cases hpx : p.x ≤ (b.min.x + b.max.x) * 0.5 <;>
      by_cases hpy : p.y ≤ (b.min.y + b.max.y) * 0.5
    · refine ⟨⟨b.min, b.getCenter⟩, by simp [quadBoxes], h1, ?_, h3, ?_⟩ <;>
        simp only [Box2.getCenter] <;> linarith
    · refine ⟨⟨⟨b.min.x, (b.getCenter).y⟩, ⟨(b.getCenter).x, b.max.y⟩⟩,
        by simp [quadBoxes], h1, ?_, ?_, h4⟩ <;>
        simp only [Box2.getCenter] <;> linarith
    · refine ⟨⟨⟨(b.getCenter).x, b.min.y⟩, ⟨b.max.x, (b.getCenter).y⟩⟩,
        by simp [quadBoxes], ?_, h2, h3, ?_⟩ <;>
        simp only [Box2.getCenter] <;> linarith
    · refine ⟨⟨b.getCenter, b.max⟩, by simp [quadBoxes], ?_, h2, ?_, h4⟩ <;>
        simp only [Box2.getCenter] <;> linarith
  · rintro ⟨qb, hqb, hmem⟩
    have hle := quadBoxes_boxLe ⟨hx, hy⟩ hqb
    obtain ⟨l1, l2, l3, l4⟩ := hle
    obtain ⟨m1, m2, m3, m4⟩ := hmem
    exact ⟨by linarith, by linarith, by linarith, by linarith⟩

/-- Interiors of two boxes never meet at a point. -/
def interiorDisjoint (b1 b2 : Box2) : Prop :=
  ∀ p : Vec2, ¬ (interiorBox b1 p ∧ interiorBox b2 p)

theorem interiorDisjoint_of_separated {b1 b2 : Box2}
    (hsep : b1.max.x ≤ b2.min.x ∨ b2.max.x ≤ b1.min.x
      ∨ b1.max.y ≤ b2.min.y ∨ b2.max.y ≤ b1.min.y) :
    interiorDisjoint b1 b2 := by
  intro p hp
  obtain ⟨hA, hB⟩ := hp
  unfold interiorBox at hA hB
  obtain ⟨h1, h2, h3, h4⟩ := hA
  obtain ⟨g1, g2, g3, g4⟩ := hB
  rcases hsep with h | h | h | h <;> linarith

theorem quadBoxes_interior_pairwise (b : Box2) :
    List.Pairwise interiorDisjoint (quadBoxes b) := by
  unfold quadBoxes
  refine .cons ?_ (.cons ?_ (.cons ?_ (.cons (by simp) .nil)))
  · intro b2 hb2
    simp only [List.mem_cons, List.not_mem_nil, or_false] at hb2
    rcases hb2 with rfl | rfl | rfl
    · exact interiorDisjoint_of_separated (Or.inl (le_refl _))
    · exact interiorDisjoint_of_separated (Or.inr (Or.inr (Or.inl (le_refl _))))
    · exact interiorDisjoint_of_separated (Or.inl (le_refl _))
  · intro b2 hb2
    simp only [List.mem_cons, List.not_mem_nil, or_false] at hb2
    rcases hb2 with rfl | rfl
    · exact interiorDisjoint_of_separated (Or.inr (Or.inl (le_refl _)))
    · exact interiorDisjoint_of_separated (Or.inr (Or.inr (Or.inl (le_refl _))))
  · intro b2 hb2
    simp only [List.mem_cons, List.not_mem_nil, or_false] at hb2
    rcases hb2 with rfl
    exact interiorDisjoint_of_separated (Or.inl (le_refl _))

theorem interior_mono {inner outer : Box2} {p : Vec2}
    (hle : boxLe inner outer) (hp : interiorBox inner p) : interiorBox outer p := by
  obtain ⟨l1, l2, l3, l4⟩ := hle
  obtain ⟨h1, h2, h3, h4⟩ := hp
  exact ⟨by linarith, by linarith, by linarith, by linarith⟩

theorem insertBox_leaves_boxLe (m : ℚ) (pos : Vec2) :
    ∀ (fuel : ℕ) (b : Box2), b.wf →
      ∀ n ∈ getChildren (insertBox m pos fuel b), boxLe n.bounds b ∧ n.bounds.wf := by
  intro fuel
  induction fuel with
  | zero =>
    intro b hb n hn
    simp only [insertBox, getChildren_leaf, List.mem_singleton] at hn
    subst hn
    exact ⟨⟨le_refl _, le_refl _, le_refl _, le_refl _⟩, hb⟩
  | succ fuel ih =>
    intro b hb n hn
    rw [insertBox] at hn
    split at hn
    · rw [getChildren_mk_of_ne_nil _ _ (by simp [quadBoxes]), mem_getChildrenList] at hn
      obtain ⟨t, ht, hnt⟩ := hn
      obtain ⟨qb, hqb, rfl⟩ := List.mem_map.mp ht
      obtain ⟨hle, hwf⟩ := ih qb (quadBoxes_wf hb hqb) n hnt
      refine ⟨?_, hwf⟩
      have hqble := quadBoxes_boxLe hb hqb
      obtain ⟨a1, a2, a3, a4⟩ := hle
      obtain ⟨c1, c2, c3, c4⟩ := hqble
      exact ⟨by linarith, by linarith, by linarith, by linarith⟩
    · simp only [getChildren_leaf, List.mem_singleton] at hn
      subst hn
      exact ⟨⟨le_refl _, le_refl _, le_refl _, le_refl _⟩, hb⟩

theorem insertBox_leaf_cond (m : ℚ) (pos : Vec2) :
    ∀ (fuel : ℕ) (b : Box2), 0 < m → (b.getSize).x ≤ m * 2 ^ fuel →
      ∀ n ∈ getChildren (insertBox m pos fuel b),
        ¬ distLt n.bounds.getCenter pos (n.bounds.getSize).x
        ∨ (n.bounds.getSize).x ≤ m := by
  intro fuel
  induction fuel with
  | zero =>
    intro b hm hfuel n hn
    simp only [insertBox, getChildren_leaf, List.mem_singleton] at hn
    subst hn
    right
    simpa using hfuel
  | succ fuel ih =>
    intro b hm hfuel n hn
    rw [insertBox] at hn
    split at hn
    · rw [getChildren_mk_of_ne_nil _ _ (by simp [quadBoxes]), mem_getChildrenList] at hn
      obtain ⟨t, ht, hnt⟩ := hn
      obtain ⟨qb, hqb, rfl⟩ := List.mem_map.mp ht
      refine ih qb hm ?_ n hnt
      rw [quadBoxes_sizeX hqb]
      have h2 : (b.getSize).x ≤ m * 2 ^ fuel * 2 := by
        rw [mul_assoc, ← pow_succ]
        exact hfuel
      linarith
    · next hcond =>
      simp only [getChildren_leaf, List.mem_singleton] at hn
      subst hn
      rcases not_and_or.mp hcond with h | h
      · exact Or.inl h
      · exact Or.inr (le_of_not_lt h)

theorem insertBox_no_small_subdivision (m : ℚ) (pos : Vec2) :
    ∀ (fuel : ℕ) (b : Box2), ∀ n ∈ allNodes (insertBox m pos fuel b),
      n.children ≠ [] → m < (n.bounds.getSize).x := by
  intro fuel
  induction fuel with
  | zero =>
    intro b n hn hne
    simp only [insertBox, allNodes_def, allNodesList, List.mem_singleton] at hn
    subst hn
    exact absurd rfl hne
  | succ fuel ih =>
    intro b n hn hne
    rw [insertBox] at hn
    split at hn
    · next hcond =>
      rw [allNodes_def] at hn
      rcases List.mem_cons.mp hn with rfl | hn
      · exact hcond.2
      · rw [mem_allNodesList] at hn
        obtain ⟨t, ht, hnt⟩ := hn
        obtain ⟨qb, _, rfl⟩ := List.mem_map.mp ht
        exact ih qb n hnt hne
    · simp only [allNodes_def, allNodesList, List.mem_singleton] at hn
      subst hn
      exact absurd rfl hne

/-- **C3.** After construction and one `insert(position)` call with
`minNodeSize > 0` (with enough `fuel` for the bounded recursion, i.e.
`size.x ≤ minNodeSize · 2^fuel`): every leaf either has its centre at
distance at least its own `size.x` from the query point, or has
`size.x ≤ minNodeSize`; and no node whose `size.x ≤ minNodeSize` is
ever subdivided (every subdivided node has `size.x > minNodeSize`). -/
theorem quadtree_insert_termination (minNodeSize : ℚ) (position : Vec2)
    (fuel : ℕ) (b : Box2) (hmin : 0 < minNodeSize)
    (hfuel : (b.getSize).x ≤ minNodeSize * 2 ^ fuel) :
    (∀ n ∈ getChildren (insertBox minNodeSize position fuel b),
        ¬ distLt n.bounds.getCenter position (n.bounds.getSize).x
        ∨ (n.bounds.getSize).x ≤ minNodeSize)
    ∧ (∀ n ∈ allNodes (insertBox minNodeSize position fuel b),
        n.children ≠ [] → minNodeSize < (n.bounds.getSize).x) :=
  ⟨insertBox_leaf_cond minNodeSize position fuel b hmin hfuel,
   insertBox_no_small_subdivision minNodeSize position fuel b⟩

/-- Closed witness for `quadtree_insert_termination`: the spec's
scenario C — root `[-256, 256]²`, `minLeafSize = 64`, viewer at the
origin (depth bound `3`, since `512 = 64·2³`). -/
theorem quadtree_insert_termination_witness :
    (0 < (64 : ℚ)
      ∧ ((Box2.mk ⟨-256, -256⟩ ⟨256, 256⟩).getSize).x ≤ 64 * 2 ^ 3)
    ∧ ((∀ n ∈ getChildren (insertBox 64 ⟨0, 0⟩ 3 (Box2.mk ⟨-256, -256⟩ ⟨256, 256⟩)),
          ¬ distLt n.bounds.getCenter ⟨0, 0⟩ (n.bounds.getSize).x
          ∨ (n.bounds.getSize).x ≤ 64)
      ∧ (∀ n ∈ allNodes (insertBox 64 ⟨0, 0⟩ 3 (Box2.mk ⟨-256, -256⟩ ⟨256, 256⟩)),
          n.children ≠ [] → 64 < (n.bounds.getSize).x)) :=
  ⟨⟨by norm_num, by norm_num [Box2.getSize]⟩,
   quadtree_insert_termination 64 ⟨0, 0⟩ 3 (Box2.mk ⟨-256, -256⟩ ⟨256, 256⟩)
     (by norm_num) (by norm_num [Box2.getSize])⟩

theorem insertBox_children_shape (m : ℚ) (pos : Vec2) :
    ∀ (fuel : ℕ) (b : Box2), ∀ n ∈ allNodes (insertBox m pos fuel b),
      n.children = [] ∨ n.children.map QNode.bounds = quadBoxes n.bounds := by
  intro fuel
  induction fuel with
  | zero =>
    intro b n hn
    simp only [insertBox, allNodes_def, allNodesList, List.mem_singleton] at hn
    subst hn
    exact Or.inl rfl
  | succ fuel ih =>
    intro b n hn
    rw [insertBox] at hn
    split at hn
    · rw [allNodes_def] at hn
      rcases List.mem_cons.mp hn with rfl | hn
      · right
        show ((quadBoxes b).map (insertBox m pos fuel)).map QNode.bounds = quadBoxes b
        rw [List.map_map]
        have hcongr : ∀ qb ∈ quadBoxes b,
            (QNode.bounds ∘ insertBox m pos fuel) qb = id qb :=
          fun qb _ => insertBox_bounds m pos fuel qb
        rw [List.map_congr_left hcongr, List.map_id]
      · rw [mem_allNodesList] at hn
        obtain ⟨t, ht, hnt⟩ := hn
        obtain ⟨qb, _, rfl⟩ := List.mem_map.mp ht
        exact ih qb n hnt
    · simp only [allNodes_def, allNodesList, List.mem_singleton] at hn
      subst hn
      exact Or.inl rfl

theorem mem_getChildrenList_iff :
    ∀ l : List QNode, ∀ n : QNode,
      n ∈ getChildrenList l ↔ n ∈ allNodesList l ∧ n.children = [] := by
  intro l
  induction l using getChildrenList.induct with
  | case1 =>
    intro n
    simp [getChildrenList, allNodesList]
  | case2 b rest ih =>
    intro n
    rw [getChildrenList, allNodesList]
    simp only [List.mem_cons, allNodesList, List.nil_append, ih]
    constructor
    · rintro (rfl | ⟨h1, h2⟩)
      · exact ⟨Or.inl rfl, rfl⟩
      · exact ⟨Or.inr h1, h2⟩
    · rintro ⟨rfl | h1, h2⟩
      · exact Or.inl rfl
      · exact Or.inr ⟨h1, h2⟩
  | case3 b c cs rest ih1 ih2 =>
    intro n
    rw [getChildrenList, allNodesList]
    simp only [List.mem_append, List.mem_cons, ih1, ih2]
    constructor
    · rintro (⟨h1, h2⟩ | ⟨h1, h2⟩)
      · exact ⟨Or.inr (Or.inl h1), h2⟩
      · exact ⟨Or.inr (Or.inr h1), h2⟩
    · rintro ⟨rfl | (h1 | h1), h2⟩
      · exact absurd h2 (by simp [QNode.children])
      · exact Or.inl ⟨h1, h2⟩
      · exact Or.inr ⟨h1, h2⟩

theorem insertBox_cover (m : ℚ) (pos : Vec2) :
    ∀ (fuel : ℕ) (b : Box2), b.wf → ∀ p : Vec2,
      (memBox b p ↔
        ∃ l ∈ getChildren (insertBox m pos fuel b), memBox l.bounds p) := by
  intro fuel
  induction fuel with
  | zero =>
    intro b _ p
    simp [insertBox, getChildren_leaf, QNode.bounds]
  | succ fuel ih =>
    intro b hb p
    rw [insertBox]
    split
    · rw [getChildren_mk_of_ne_nil _ _ (by simp [quadBoxes])]
      rw [quadBoxes_cover hb p]
      constructor
      · rintro ⟨qb, hqb, hmem⟩
        obtain ⟨l, hl, hlm⟩ := (ih qb (quadBoxes_wf hb hqb) p).mp hmem
        refine ⟨l, ?_, hlm⟩
        rw [mem_getChildrenList]
        exact ⟨insertBox m pos fuel qb, List.mem_map.mpr ⟨qb, hqb, rfl⟩, hl⟩
      · rintro ⟨l, hl, hlm⟩
        rw [mem_getChildrenList] at hl
        obtain ⟨t, ht, hlt⟩ := hl
        obtain ⟨qb, hqb, rfl⟩ := List.mem_map.mp ht
        exact ⟨qb, hqb, (ih qb (quadBoxes_wf hb hqb) p).mpr ⟨l, hlt, hlm⟩⟩
    · simp [getChildren_leaf, QNode.bounds]

theorem pairwise_getChildrenList {R : QNode → QNode → Prop} :
    ∀ l : List QNode,
      (∀ t ∈ l, List.Pairwise R (getChildren t)) →
      List.Pairwise
        (fun t1 t2 => ∀ a ∈ getChildren t1, ∀ c ∈ getChildren t2, R a c) l →
      List.Pairwise R (getChildrenList l) := by
  intro l
  induction l with
  | nil =>
    intro _ _
    simp [getChildrenList]
  | cons t rest ih =>
    intro hwithin hacross
    rw [getChildrenList_cons, List.pairwise_append]
    rcases List.pairwise_cons.mp hacross with ⟨hhead, htail⟩
    refine ⟨hwithin t (List.mem_cons_self t rest),
      ih (fun t' ht' => hwithin t' (List.mem_cons_of_mem t ht')) htail, ?_⟩
    intro a ha c hc
    rw [mem_getChildrenList] at hc
    obtain ⟨t2, ht2, hct2⟩ := hc
    exact hhead t2 ht2 a ha c hct2

theorem insertBox_leaves_pairwise (m : ℚ) (pos : Vec2) :
    ∀ (fuel : ℕ) (b : Box2), b.wf →
      List.Pairwise (fun a c => interiorDisjoint a.bounds c.bounds)
        (getChildren (insertBox m pos fuel b)) := by
  intro fuel
  induction fuel with
  | zero =>
    intro b _
    simp only [insertBox, getChildren_leaf]
    exact List.Pairwise.cons (by simp) List.Pairwise.nil
  | succ fuel ih =>
    intro b hb
    rw [insertBox]
    split
    · rw [getChildren_mk_of_ne_nil _ _ (by simp [quadBoxes])]
      refine pairwise_getChildrenList _ ?_ ?_
      · intro t ht
        obtain ⟨qb, hqb, rfl⟩ := List.mem_map.mp ht
        exact ih qb (quadBoxes_wf hb hqb)
      · rw [List.pairwise_map]
        refine (quadBoxes_interior_pairwise b).imp_of_mem ?_
        intro qb1 qb2 hqb1 hqb2 hdisj
        intro a ha c hc p hp
        obtain ⟨hpa, hpc⟩ := hp
        have h1 := (insertBox_leaves_boxLe m pos fuel qb1 (quadBoxes_wf hb hqb1) a ha).1
        have h2 := (insertBox_leaves_boxLe m pos fuel qb2 (quadBoxes_wf hb hqb2) c hc).1
        exact hdisj p ⟨interior_mono h1 hpa, interior_mono h2 hpc⟩
    · simp only [getChildren_leaf]
      exact List.Pairwise.cons (by simp) List.Pairwise.nil

/-- **C4.** For every tree reachable by construction from a well-formed
root box followed by one `insert` call: a node is collected as a leaf
iff its children list is empty; every non-leaf node's children are
exactly the four quadrants of its own bounds split at its midpoint; and
the leaves tile the root bounds exactly — every point of the root box
lies in some leaf box and the interiors of distinct leaves never
overlap. -/
theorem quadtree_structure (minNodeSize : ℚ) (position : Vec2) (fuel : ℕ)
    (b : Box2) (hb : b.wf) :
    (∀ n ∈ allNodes (insertBox minNodeSize position fuel b),
        n.children = [] ∨ n.children.map QNode.bounds = quadBoxes n.bounds)
    ∧ (∀ n : QNode, n ∈ getChildren (insertBox minNodeSize position fuel b) ↔
        n ∈ allNodes (insertBox minNodeSize position fuel b) ∧ n.children = [])
    ∧ (∀ p : Vec2, memBox b p ↔
        ∃ l ∈ getChildren (insertBox minNodeSize position fuel b), memBox l.bounds p)
    ∧ List.Pairwise (fun a c => interiorDisjoint a.bounds c.bounds)
        (getChildren (insertBox minNodeSize position fuel b)) :=
  ⟨insertBox_children_shape minNodeSize position fuel b,
   fun n => mem_getChildrenList_iff [insertBox minNodeSize position fuel b] n,
   insertBox_cover minNodeSize position fuel b hb,
   insertBox_leaves_pairwise minNodeSize position fuel b hb⟩

/-- Closed witness for `quadtree_structure`: root `[-2, 2]²`, minimum
leaf size `1`, query point at the origin, depth bound `2`. -/
theorem quadtree_structure_witness :
    (Box2.mk ⟨-2, -2⟩ ⟨2, 2⟩).wf
    ∧ ((∀ n ∈ allNodes (insertBox 1 ⟨0, 0⟩ 2 (Box2.mk ⟨-2, -2⟩ ⟨2, 2⟩)),
          n.children = [] ∨ n.children.map QNode.bounds = quadBoxes n.bounds)
      ∧ (∀ n : QNode, n ∈ getChildren (insertBox 1 ⟨0, 0⟩ 2 (Box2.mk ⟨-2, -2⟩ ⟨2, 2⟩)) ↔
          n ∈ allNodes (insertBox 1 ⟨0, 0⟩ 2 (Box2.mk ⟨-2, -2⟩ ⟨2, 2⟩)) ∧ n.children = [])
      ∧ (∀ p : Vec2, memBox (Box2.mk ⟨-2, -2⟩ ⟨2, 2⟩) p ↔
          ∃ l ∈ getChildren (insertBox 1 ⟨0, 0⟩ 2 (Box2.mk ⟨-2, -2⟩ ⟨2, 2⟩)),
            memBox l.bounds p)
      ∧ List.Pairwise (fun a c => interiorDisjoint a.bounds c.bounds)
          (getChildren (insertBox 1 ⟨0, 0⟩ 2 (Box2.mk ⟨-2, -2⟩ ⟨2, 2⟩)))) :=
  ⟨by constructor <;> norm_num,
   quadtree_structure 1 ⟨0, 0⟩ 2 (Box2.mk ⟨-2, -2⟩ ⟨2, 2⟩) (by constructor <;> norm_num)⟩

end ThreejsTerrain
